import Mathlib

/-!
# Extended Euclidean algorithm (`extendedgcd.c`)

A shallow embedding of `extendedGCD` and of the demonstration driver `main`,
over exact integers.  C's `long` division truncates toward zero and is undefined
for a zero divisor; the loop is run with an explicit iteration budget.  A second copy
of the body and loop reduces every arithmetic result modulo `2 ^ 64`, for the
questions about the 64-bit `long` type.
-/

namespace ECC

/-- Ways in which a run of the model can fail to produce a value. -/
inductive Err where
  | divByZero
  | outOfFuel
  deriving DecidableEq, Repr

deriving instance DecidableEq for Except

/-- The locals of `extendedGCD` that live across loop iterations. -/
structure State where
  a : Int
  b : Int
  x1 : Int
  x2 : Int
  y1 : Int
  y2 : Int
  deriving DecidableEq, Repr

/-- The three values written through the output pointers `gcd`, `x`, `y`. -/
structure Triple where
  gcd : Int
  x : Int
  y : Int
  deriving DecidableEq, Repr

/-- The C expression `a / b` on `long`: truncation toward zero, an error for `b = 0`. -/
def cdiv (a b : Int) : Except Err Int :=
  if b = 0 then .error .divByZero else .ok (Int.tdiv a b)

/-- The locals on entry to the loop: `x2 = 1; x1 = 0; y2 = 0; y1 = 1;`. -/
def init (a b : Int) : State :=
  { a := a, b := b, x2 := 1, x1 := 0, y2 := 0, y1 := 1 }

/-- One execution of the loop body, in exact integer arithmetic.  The same body with the
results reduced to 64 bits is `body64`; the two agree wherever no operation overflows
(`body64_eq_body`, `run64_eq_run`), and the function returns the same triple with either
on all 64-bit operands (`extendedGCD64Fuel_eq`). -/
def body (s : State) : Except Err State :=
  match cdiv s.a s.b with
  | .error e => .error e
  | .ok q =>
    let r := s.a - (q * s.b)
    let x := s.x2 - (q * s.x1)
    let y := s.y2 - (q * s.y1)
    .ok { a := s.b, b := r, x2 := s.x1, x1 := x, y2 := s.y1, y1 := y }

/-- The loop `while (b > 0) { ... }`, allowed at most `fuel` executions of its body. -/
def loop : Nat → State → Except Err State
  | fuel, s =>
    if 0 < s.b then
      match fuel with
      | 0 => .error .outOfFuel
      | n + 1 =>
        match body s with
        | .error e => .error e
        | .ok s' => loop n s'
    else .ok s

/-- The states at the loop head (before each evaluation of the guard `b > 0`) that
`loop fuel s` passes through, in order, beginning with `s` itself. -/
def trace : Nat → State → List State
  | fuel, s =>
    s :: (if 0 < s.b then
      match fuel with
      | 0 => []
      | n + 1 =>
        match body s with
        | .error _ => []
        | .ok s' => trace n s'
    else [])

/-- The function `extendedGCD` with the loop limited to `fuel` iterations. -/
def extendedGCDFuel (fuel : Nat) (a b : Int) : Except Err Triple :=
  if b = 0 then .ok { gcd := a, x := 1, y := 0 }
  else
    match loop fuel (init a b) with
    | .error e => .error e
    | .ok s => .ok { gcd := s.a, x := s.x2, y := s.y2 }

/-- The function `extendedGCD`.  The budget `b.toNat` is never exhausted
(`loop_ok_of_le`), and a larger budget gives the same value (`loop_fuel_mono`). -/
def extendedGCD (a b : Int) : Except Err Triple :=
  extendedGCDFuel b.toNat a b

/-- The conversion `%ld`: decimal digits, with a leading minus sign for negatives. -/
def fmtLd (n : Int) : String :=
  match n with
  | .ofNat m => Nat.repr m
  | .negSucc m => "-" ++ Nat.repr (m + 1)

/-- The text produced by `printf(" gcd = %ld\n x = %ld\n y = %ld\n", gcd, x, y)`. -/
def printfTriple (t : Triple) : String :=
  " gcd = " ++ fmtLd t.gcd ++ "\n x = " ++ fmtLd t.x ++ "\n y = " ++ fmtLd t.y ++ "\n"

/-- The standard output of `main`: `extendedGCD` on `a = 1180`, `b = 482`, then `printf`. -/
def mainOutput : Except Err String :=
  match extendedGCD 1180 482 with
  | .error e => .error e
  | .ok t => .ok (printfTriple t)

/-- The relation the loop keeps between its locals and the original operands `a0`, `b0`:
`(x2, y2)` are coefficients for the running `a`, and `(x1, y1)` for the running `b`. -/
def BezoutInv (a0 b0 : Int) (s : State) : Prop :=
  s.a = a0 * s.x2 + b0 * s.y2 ∧ s.b = a0 * s.x1 + b0 * s.y1

instance (a0 b0 : Int) (s : State) : Decidable (BezoutInv a0 b0 s) :=
  inferInstanceAs (Decidable (_ ∧ _))

/-- What the loop keeps on non-negative operands: both running values stay non-negative
and their greatest common divisor is that of the original operands. -/
def GcdInv (a0 b0 : Int) (s : State) : Prop :=
  0 ≤ s.a ∧ 0 ≤ s.b ∧ Int.gcd s.a s.b = Int.gcd a0 b0

/-- The number of executions of the loop body in `extendedGCD a b`: one less than the
number of loop-head states, the last of which is the one where the guard fails. -/
def iterations (a b : Int) : Nat :=
  (trace b.toNat (init a b)).length - 1

/-- The exact values of the arithmetic operations in one execution of the loop body, in
program order: `q`, `q * b`, `r`, `q * x1`, the new `x`, `q * y1`, the new `y`. -/
def intermediates (s : State) : Except Err (List Int) :=
  match cdiv s.a s.b with
  | .error e => .error e
  | .ok q =>
    .ok [q, q * s.b, s.a - (q * s.b), q * s.x1, s.x2 - (q * s.x1), q * s.y1, s.y2 - (q * s.y1)]

/-- The values representable in a 64-bit signed `long`. -/
def InRange64 (n : Int) : Prop :=
  -2 ^ 63 ≤ n ∧ n < 2 ^ 63

instance (n : Int) : Decidable (InRange64 n) :=
  inferInstanceAs (Decidable (_ ∧ _))

/-- Reduction modulo `2 ^ 64` to the representative in the range of a 64-bit signed `long`. -/
def wrap64 (n : Int) : Int :=
  (n + 2 ^ 63) % 2 ^ 64 - 2 ^ 63

/-- The expression `a / b` on 64-bit operands, the quotient reduced modulo `2 ^ 64`. -/
def cdiv64 (a b : Int) : Except Err Int :=
  if b = 0 then .error .divByZero else .ok (wrap64 (Int.tdiv a b))

/-- One execution of the loop body with every arithmetic result reduced modulo `2 ^ 64`. -/
def body64 (s : State) : Except Err State :=
  match cdiv64 s.a s.b with
  | .error e => .error e
  | .ok q =>
    let r := wrap64 (s.a - wrap64 (q * s.b))
    let x := wrap64 (s.x2 - wrap64 (q * s.x1))
    let y := wrap64 (s.y2 - wrap64 (q * s.y1))
    .ok { a := s.b, b := r, x2 := s.x1, x1 := x, y2 := s.y1, y1 := y }

/-- The loop with wrapping 64-bit arithmetic, allowed at most `fuel` executions of its body. -/
def loop64 : Nat → State → Except Err State
  | fuel, s =>
    if 0 < s.b then
      match fuel with
      | 0 => .error .outOfFuel
      | n + 1 =>
        match body64 s with
        | .error e => .error e
        | .ok s' => loop64 n s'
    else .ok s

/-- The states at the loop head that `loop64 fuel s` passes through, in order, beginning
with `s` itself: the loop-head states of the run with wrapping 64-bit arithmetic. -/
def trace64 : Nat → State → List State
  | fuel, s =>
    s :: (if 0 < s.b then
      match fuel with
      | 0 => []
      | n + 1 =>
        match body64 s with
        | .error _ => []
        | .ok s' => trace64 n s'
    else [])

/-- The function `extendedGCD` with wrapping 64-bit arithmetic and a limited loop. -/
def extendedGCD64Fuel (fuel : Nat) (a b : Int) : Except Err Triple :=
  if b = 0 then .ok { gcd := a, x := 1, y := 0 }
  else
    match loop64 fuel (init a b) with
    | .error e => .error e
    | .ok s => .ok { gcd := s.a, x := s.x2, y := s.y2 }

/-- The function `extendedGCD` with wrapping 64-bit arithmetic, on operands that are
themselves 64-bit values. -/
def extendedGCD64 (a b : Int) : Except Err Triple :=
  extendedGCD64Fuel b.toNat a b

/-- What the loop keeps of the coefficients on non-negative operands `a0`, `b0`: the
running values are non-negative, `x1` and `x2` have opposite signs, as have `y1` and `y2`,
and the operands are recovered as `b0 = a * |x1| + b * |x2|`, `a0 = a * |y1| + b * |y2|`
(written here without absolute values, once for each sign pattern). -/
def CoeffInv (a0 b0 : Int) (s : State) : Prop :=
  0 ≤ s.a ∧ 0 ≤ s.b ∧
  ((0 ≤ s.x2 ∧ s.x1 ≤ 0 ∧ s.y2 ≤ 0 ∧ 0 ≤ s.y1 ∧
      s.b * s.x2 - s.a * s.x1 = b0 ∧ s.a * s.y1 - s.b * s.y2 = a0) ∨
   (s.x2 ≤ 0 ∧ 0 ≤ s.x1 ∧ 0 ≤ s.y2 ∧ s.y1 ≤ 0 ∧
      s.a * s.x1 - s.b * s.x2 = b0 ∧ s.b * s.y2 - s.a * s.y1 = a0))

/-- A common bound `M` on the running values and on the stored coefficients. -/
def BoundInv (M : Int) (s : State) : Prop :=
  s.a ≤ M ∧ s.b ≤ M ∧ |s.x1| ≤ M ∧ |s.x2| ≤ M ∧ |s.y1| ≤ M ∧ |s.y2| ≤ M

/-- What holds of the coefficients `x2`, `y2` once the running pair is in decreasing
order, which is the case from the second loop-head state on (the third for `a0 < b0`). -/
def SmallInv (a0 b0 : Int) (s : State) : Prop :=
  s.b < s.a ∧ s.a * |s.x2| ≤ b0 ∧ s.a * |s.y2| ≤ a0

/-- The loop-head states of a run on `a0`, `b0`: the initial one, for `a0 < b0` the one
after the exchanging first iteration, and those with `SmallInv`. -/
def RunInv (a0 b0 : Int) (s : State) : Prop :=
  CoeffInv a0 b0 s ∧
  (s = init a0 b0 ∨
   (a0 < b0 ∧ s = { a := b0, b := a0, x2 := 0, x1 := 1, y2 := 1, y1 := 0 }) ∨
   SmallInv a0 b0 s)

/-! ## The loop body -/

theorem body_of_ne (s : State) (h : s.b ≠ 0) :
    body s = .ok { a := s.b, b := s.a - (Int.tdiv s.a s.b * s.b),
                   x2 := s.x1, x1 := s.x2 - (Int.tdiv s.a s.b * s.x1),
                   y2 := s.y1, y1 := s.y2 - (Int.tdiv s.a s.b * s.y1) } := by
  simp [body, cdiv, h]

theorem body_eq_error_iff (s : State) (e : Err) :
    body s = .error e ↔ s.b = 0 ∧ e = .divByZero := by
  by_cases h : s.b = 0
  · simp [body, cdiv, h, eq_comm]
  · simp [body_of_ne s h, h]

theorem sub_tdiv_mul (a b : Int) : a - (Int.tdiv a b * b) = Int.tmod a b := by
  rw [Int.tmod_def, Int.mul_comm]

theorem tmod_neg_left (a b : Int) : Int.tmod (-a) b = -Int.tmod a b := by
  rw [Int.tmod_def, Int.tmod_def, Int.neg_tdiv]
  ring

/-- Under the loop guard the body succeeds, and the new `b` is the remainder of the
truncating division, which lies strictly below the old `b`. -/
theorem body_of_pos (s : State) (h : 0 < s.b) :
    ∃ s', body s = .ok s' ∧ s'.a = s.b ∧ s'.b = Int.tmod s.a s.b ∧ s'.b < s.b := by
  refine ⟨_, body_of_ne s (by omega), rfl, sub_tdiv_mul _ _, ?_⟩
  show s.a - (Int.tdiv s.a s.b * s.b) < s.b
  rw [sub_tdiv_mul]
  exact Int.tmod_lt_of_pos _ h

theorem body_bezoutInv (a0 b0 : Int) (s s' : State) (hs : BezoutInv a0 b0 s)
    (hb : body s = .ok s') : BezoutInv a0 b0 s' := by
  by_cases h : s.b = 0
  · simp [body, cdiv, h] at hb
  · rw [body_of_ne s h] at hb
    injection hb with hb
    subst hb
    obtain ⟨h1, h2⟩ := hs
    refine ⟨h2, ?_⟩
    show s.a - (Int.tdiv s.a s.b * s.b) = _
    rw [h1, h2]
    ring

/-! ## The loop -/

theorem loop_of_not_pos (n : Nat) (s : State) (h : ¬ 0 < s.b) : loop n s = .ok s := by
  unfold loop
  simp [h]

theorem loop_zero_of_pos (s : State) (h : 0 < s.b) : loop 0 s = .error .outOfFuel := by
  unfold loop
  simp [h]

theorem loop_succ_of_pos (n : Nat) (s s' : State) (h : 0 < s.b) (hb : body s = .ok s') :
    loop (n + 1) s = loop n s' := by
  rw [loop]
  simp [h, hb]

/-- Induction over the iterations of the loop: a property that holds on entry and is kept
by the body under the guard holds on exit, where moreover the guard is false. -/
theorem loop_induction (P : State → Prop)
    (hstep : ∀ s s', P s → 0 < s.b → body s = .ok s' → P s') :
    ∀ (n : Nat) (s s' : State), P s → loop n s = .ok s' → P s' ∧ s'.b ≤ 0 := by
  intro n
  induction n with
  | zero =>
    intro s s' hP hl
    by_cases h : 0 < s.b
    · rw [loop_zero_of_pos s h] at hl
      cases hl
    · rw [loop_of_not_pos 0 s h] at hl
      injection hl with hl
      subst hl
      exact ⟨hP, by omega⟩
  | succ n ih =>
    intro s s' hP hl
    by_cases h : 0 < s.b
    · obtain ⟨t, ht, -⟩ := body_of_pos s h
      rw [loop_succ_of_pos n s t h ht] at hl
      exact ih t s' (hstep s t hP h ht) hl
    · rw [loop_of_not_pos (n + 1) s h] at hl
      injection hl with hl
      subst hl
      exact ⟨hP, by omega⟩

/-- The loop never reports a division by zero, whatever the budget. -/
theorem loop_ne_divByZero : ∀ (n : Nat) (s : State), loop n s ≠ .error .divByZero := by
  intro n
  induction n with
  | zero =>
    intro s
    by_cases h : 0 < s.b
    · rw [loop_zero_of_pos s h]
      decide
    · rw [loop_of_not_pos 0 s h]
      nofun
  | succ n ih =>
    intro s
    by_cases h : 0 < s.b
    · obtain ⟨t, ht, -⟩ := body_of_pos s h
      rw [loop_succ_of_pos n s t h ht]
      exact ih t
    · rw [loop_of_not_pos (n + 1) s h]
      nofun

/-- A budget of `b.toNat` iterations is enough for the loop to run to completion. -/
theorem loop_ok_of_le : ∀ (n : Nat) (s : State), s.b.toNat ≤ n → ∃ s', loop n s = .ok s' := by
  intro n
  induction n with
  | zero =>
    intro s hn
    exact ⟨s, loop_of_not_pos 0 s (by omega)⟩
  | succ n ih =>
    intro s hn
    by_cases h : 0 < s.b
    · obtain ⟨t, ht, -, -, hlt⟩ := body_of_pos s h
      rw [loop_succ_of_pos n s t h ht]
      exact ih t (by omega)
    · exact ⟨s, loop_of_not_pos (n + 1) s h⟩

/-- Once the loop completes within a budget, a larger budget gives the same final state. -/
theorem loop_fuel_mono : ∀ (n m : Nat) (s s' : State), n ≤ m → loop n s = .ok s' →
    loop m s = .ok s' := by
  intro n
  induction n with
  | zero =>
    intro m s s' _ hl
    by_cases h : 0 < s.b
    · rw [loop_zero_of_pos s h] at hl
      cases hl
    · rw [loop_of_not_pos 0 s h] at hl
      rw [loop_of_not_pos m s h, hl]
  | succ n ih =>
    intro m s s' hm hl
    by_cases h : 0 < s.b
    · obtain ⟨t, ht, -⟩ := body_of_pos s h
      obtain ⟨k, rfl⟩ : ∃ k, m = k + 1 := ⟨m - 1, by omega⟩
      rw [loop_succ_of_pos n s t h ht] at hl
      rw [loop_succ_of_pos k s t h ht]
      exact ih k t s' (by omega) hl
    · rw [loop_of_not_pos (n + 1) s h] at hl
      rw [loop_of_not_pos m s h, hl]

/-! ## The loop-head states -/

theorem trace_of_not_pos (n : Nat) (s : State) (h : ¬ 0 < s.b) : trace n s = [s] := by
  unfold trace
  simp [h]

theorem trace_zero (s : State) : trace 0 s = [s] := by
  unfold trace
  simp

theorem trace_succ_of_pos (n : Nat) (s s' : State) (h : 0 < s.b) (hb : body s = .ok s') :
    trace (n + 1) s = s :: trace n s' := by
  rw [trace]
  simp [h, hb]

/-- A property that holds on entry and is kept by the body under the guard holds at every
loop-head state. -/
theorem trace_induction (P : State → Prop)
    (hstep : ∀ s s', P s → 0 < s.b → body s = .ok s' → P s') :
    ∀ (n : Nat) (s : State), P s → ∀ t ∈ trace n s, P t := by
  intro n
  induction n with
  | zero =>
    intro s hP t ht
    rw [trace_zero] at ht
    rw [List.mem_singleton.mp ht]
    exact hP
  | succ n ih =>
    intro s hP t ht
    by_cases h : 0 < s.b
    · obtain ⟨u, hu, -⟩ := body_of_pos s h
      rw [trace_succ_of_pos n s u h hu, List.mem_cons] at ht
      rcases ht with rfl | ht
      · exact hP
      · exact ih u (hstep s u hP h hu) t ht
    · rw [trace_of_not_pos (n + 1) s h] at ht
      rw [List.mem_singleton.mp ht]
      exact hP

/-- The state on which the loop exits is the last of the loop-head states. -/
theorem loop_eq_getLast : ∀ (n : Nat) (s s' : State), loop n s = .ok s' →
    (trace n s).getLast? = some s' := by
  intro n
  induction n with
  | zero =>
    intro s s' hl
    by_cases h : 0 < s.b
    · rw [loop_zero_of_pos s h] at hl
      cases hl
    · rw [loop_of_not_pos 0 s h] at hl
      injection hl with hl
      simp [trace_zero, hl]
  | succ n ih =>
    intro s s' hl
    by_cases h : 0 < s.b
    · obtain ⟨t, ht, -⟩ := body_of_pos s h
      rw [loop_succ_of_pos n s t h ht] at hl
      have h1 := ih t s' hl
      have h2 : trace n t ≠ [] := by
        unfold trace
        simp
      rw [trace_succ_of_pos n s t h ht]
      cases htr : trace n t with
      | nil => exact absurd htr h2
      | cons u r =>
        rw [htr] at h1
        rw [List.getLast?_cons_cons]
        exact h1
    · rw [loop_of_not_pos (n + 1) s h] at hl
      injection hl with hl
      subst hl
      simp [trace_of_not_pos (n + 1) s h]

/-! ## The function -/

theorem extendedGCDFuel_zero (fuel : Nat) (a : Int) :
    extendedGCDFuel fuel a 0 = .ok { gcd := a, x := 1, y := 0 } := by
  simp [extendedGCDFuel]

theorem extendedGCDFuel_of_loop (fuel : Nat) (a b : Int) (s : State) (hb : b ≠ 0)
    (hl : loop fuel (init a b) = .ok s) :
    extendedGCDFuel fuel a b = .ok { gcd := s.a, x := s.x2, y := s.y2 } := by
  simp [extendedGCDFuel, hb, hl]

/-- The function always returns a triple; for `b ≠ 0` it is read off the exit state of the
loop, and every budget of at least `b.toNat` iterations gives this same triple. -/
theorem extendedGCD_ok (a b : Int) :
    ∃ t, extendedGCD a b = .ok t ∧ (∀ fuel, b.toNat ≤ fuel → extendedGCDFuel fuel a b = .ok t) ∧
      (b = 0 → t = { gcd := a, x := 1, y := 0 }) ∧
      (b ≠ 0 → ∃ s, loop b.toNat (init a b) = .ok s ∧ t = { gcd := s.a, x := s.x2, y := s.y2 }) := by
  by_cases hb : b = 0
  · subst hb
    exact ⟨_, extendedGCDFuel_zero _ a, fun fuel _ => extendedGCDFuel_zero fuel a,
      fun _ => rfl, fun h => absurd rfl h⟩
  · obtain ⟨s, hs⟩ := loop_ok_of_le b.toNat (init a b) (Nat.le_refl _)
    refine ⟨_, extendedGCDFuel_of_loop _ a b s hb hs, fun fuel hf => ?_, fun h => absurd h hb,
      fun _ => ⟨s, hs, rfl⟩⟩
    exact extendedGCDFuel_of_loop fuel a b s hb (loop_fuel_mono _ fuel _ s hf hs)

theorem bezoutInv_init (a b : Int) : BezoutInv a b (init a b) := by
  simp [BezoutInv, init]

/-- The exit state of the loop satisfies the coefficient relation for the original operands. -/
theorem loop_bezoutInv (n : Nat) (a b : Int) (s : State) (hl : loop n (init a b) = .ok s) :
    BezoutInv a b s :=
  (loop_induction (BezoutInv a b) (fun s s' hs _ hb => body_bezoutInv a b s s' hs hb)
    n (init a b) s (bezoutInv_init a b) hl).1

/-! ## Greatest common divisor -/

/-- One Euclidean step does not change the greatest common divisor. -/
theorem gcd_step (a b q : Int) : Int.gcd b (a - (q * b)) = Int.gcd a b := by
  apply Nat.dvd_antisymm
  · apply Int.natCast_dvd_natCast.mp
    apply Int.dvd_gcd
    · have h1 : (Int.gcd b (a - (q * b)) : Int) ∣ a - (q * b) := Int.gcd_dvd_right
      have h2 : (Int.gcd b (a - (q * b)) : Int) ∣ q * b := Dvd.dvd.mul_left Int.gcd_dvd_left q
      have h3 := dvd_add h1 h2
      rwa [sub_add_cancel] at h3
    · exact Int.gcd_dvd_left
  · apply Int.natCast_dvd_natCast.mp
    apply Int.dvd_gcd
    · exact Int.gcd_dvd_right
    · have h1 : (Int.gcd a b : Int) ∣ a := Int.gcd_dvd_left
      have h2 : (Int.gcd a b : Int) ∣ q * b := Dvd.dvd.mul_left Int.gcd_dvd_right q
      exact dvd_sub h1 h2

theorem body_gcdInv (a0 b0 : Int) (s s' : State) (hs : GcdInv a0 b0 s) (hpos : 0 < s.b)
    (hb : body s = .ok s') : GcdInv a0 b0 s' := by
  rw [body_of_ne s (by omega)] at hb
  injection hb with hb
  subst hb
  obtain ⟨h1, -, h3⟩ := hs
  refine ⟨by show 0 ≤ s.b; omega, ?_, ?_⟩
  · show 0 ≤ s.a - (Int.tdiv s.a s.b * s.b)
    rw [sub_tdiv_mul]
    exact Int.tmod_nonneg _ h1
  · show Int.gcd s.b (s.a - (Int.tdiv s.a s.b * s.b)) = _
    rw [gcd_step, h3]

/-- On non-negative operands the function returns the greatest common divisor, together
with coefficients that express it. -/
theorem extendedGCD_eq_gcd (a b : Int) (ha : 0 ≤ a) (hb : 0 ≤ b) :
    ∃ t, extendedGCD a b = .ok t ∧ t.gcd = (Int.gcd a b : Int) := by
  obtain ⟨t, ht, -, h0, hne⟩ := extendedGCD_ok a b
  refine ⟨t, ht, ?_⟩
  by_cases hb0 : b = 0
  · rw [h0 hb0, hb0, Int.gcd_zero_right, Int.natCast_natAbs, abs_of_nonneg ha]
  · obtain ⟨s, hs, rfl⟩ := hne hb0
    obtain ⟨⟨h1, h2, h3⟩, h4⟩ := loop_induction (GcdInv a b) (body_gcdInv a b)
      b.toNat (init a b) s ⟨ha, hb, rfl⟩ hs
    have h5 : s.b = 0 := by omega
    rw [h5, Int.gcd_zero_right] at h3
    show s.a = _
    rw [← h3, Int.natCast_natAbs, abs_of_nonneg h1]

/-! ## The claims -/

/-- C1. Bézout identity: for every pair of integers `a`, `b`, the function returns a triple
`(gcd, x, y)` with `a * x + b * y = gcd` for the original `a` and `b`. -/
theorem extendedGCD_bezout (a b : Int) :
    ∃ t, extendedGCD a b = .ok t ∧ a * t.x + b * t.y = t.gcd := by
  obtain ⟨t, ht, -, h0, hne⟩ := extendedGCD_ok a b
  refine ⟨t, ht, ?_⟩
  by_cases hb0 : b = 0
  · rw [h0 hb0, hb0]
    simp
  · obtain ⟨s, hs, rfl⟩ := hne hb0
    exact (loop_bezoutInv _ a b s hs).1.symm

/-- C2. For non-negative `a`, `b` the returned `gcd` is the greatest common divisor of `a`
and `b`: it is non-negative, divides both, is divisible by every common divisor, equals
`Int.gcd a b`, and is `a` itself when `b = 0`. -/
theorem extendedGCD_is_gcd (a b : Int) (ha : 0 ≤ a) (hb : 0 ≤ b) :
    ∃ t, extendedGCD a b = .ok t ∧ 0 ≤ t.gcd ∧ t.gcd ∣ a ∧ t.gcd ∣ b ∧
      (∀ d : Int, d ∣ a → d ∣ b → d ∣ t.gcd) ∧ t.gcd = (Int.gcd a b : Int) ∧
      (b = 0 → t.gcd = a) := by
  obtain ⟨t, ht, hg⟩ := extendedGCD_eq_gcd a b ha hb
  refine ⟨t, ht, ?_, ?_, ?_, ?_, hg, ?_⟩
  · rw [hg]
    exact Int.ofNat_nonneg _
  · rw [hg]
    exact Int.gcd_dvd_left
  · rw [hg]
    exact Int.gcd_dvd_right
  · intro d h1 h2
    rw [hg]
    exact Int.dvd_gcd h1 h2
  · intro hb0
    rw [hg, hb0, Int.gcd_zero_right, Int.natCast_natAbs, abs_of_nonneg ha]

theorem extendedGCD_is_gcd_witness :
    (0 : Int) ≤ 48 ∧ (0 : Int) ≤ 18 ∧
    ∃ t, extendedGCD 48 18 = .ok t ∧ 0 ≤ t.gcd ∧ t.gcd ∣ 48 ∧ t.gcd ∣ 18 ∧
      (∀ d : Int, d ∣ 48 → d ∣ 18 → d ∣ t.gcd) ∧ t.gcd = (Int.gcd 48 18 : Int) ∧
      ((18 : Int) = 0 → t.gcd = 48) :=
  ⟨by decide, by decide, extendedGCD_is_gcd 48 18 (by decide) (by decide)⟩

/-- C3 (as stated, refuted). On the driver's operands `1180`, `482` the function does not
return `(2, 29, -71)`, the driver does not print the lines ` gcd = 2`, ` x = 29`, ` y = -71`,
and that pair of coefficients gives `-2` rather than the gcd. -/
theorem reference_scenario_counterexample :
    extendedGCD 1180 482 ≠ .ok { gcd := 2, x := 29, y := -71 } ∧
    mainOutput ≠ .ok " gcd = 2\n x = 29\n y = -71\n" ∧
    (1180 : Int) * 29 + 482 * (-71) = -2 := by
  decide

/-- C3 (amended). On the driver's operands `1180`, `482` the function returns
`(2, -29, 71)`, and the driver prints exactly the three newline-terminated lines
` gcd = 2`, ` x = -29`, ` y = 71`, in that order. -/
theorem reference_scenario :
    extendedGCD 1180 482 = .ok { gcd := 2, x := -29, y := 71 } ∧
    mainOutput = .ok " gcd = 2\n x = -29\n y = 71\n" := by
  decide

/-- C4. Base case: for every integer `a`, `extendedGCD a 0` is exactly `(a, 1, 0)`, under
every iteration budget; in particular `extendedGCD 0 0` is `(0, 1, 0)`. -/
theorem extendedGCD_base (a : Int) :
    extendedGCD a 0 = .ok { gcd := a, x := 1, y := 0 } ∧
    (∀ fuel, extendedGCDFuel fuel a 0 = .ok { gcd := a, x := 1, y := 0 }) ∧
    extendedGCD 0 0 = .ok { gcd := 0, x := 1, y := 0 } :=
  ⟨extendedGCDFuel_zero _ a, fun fuel => extendedGCDFuel_zero fuel a, extendedGCDFuel_zero _ 0⟩

/-- C5 (as stated, refuted). At `a = 0`, `b = 0` the returned gcd is `0`, and the larger
non-negative integer `1` divides both operands. -/
theorem maximality_counterexample :
    ∃ t, extendedGCD 0 0 = .ok t ∧
      ∃ d : Int, 0 ≤ d ∧ t.gcd < d ∧ d ∣ (0 : Int) ∧ d ∣ (0 : Int) :=
  ⟨{ gcd := 0, x := 1, y := 0 }, by decide, 1, by decide, by decide, by decide, by decide⟩

/-- C5 (amended). Maximality: for non-negative `a`, `b` that are not both zero, no
non-negative integer larger than the returned gcd divides both `a` and `b`. -/
theorem extendedGCD_maximal (a b : Int) (ha : 0 ≤ a) (hb : 0 ≤ b) (hab : a ≠ 0 ∨ b ≠ 0) :
    ∃ t, extendedGCD a b = .ok t ∧
      ∀ d : Int, 0 ≤ d → t.gcd < d → ¬ (d ∣ a ∧ d ∣ b) := by
  obtain ⟨t, ht, hg⟩ := extendedGCD_eq_gcd a b ha hb
  refine ⟨t, ht, ?_⟩
  rintro d - hlt ⟨h1, h2⟩
  have hpos : (0 : Int) < (Int.gcd a b : Int) := by
    exact_mod_cast Int.gcd_pos_iff.mpr hab
  have hle := Int.le_of_dvd hpos (Int.dvd_gcd h1 h2)
  omega

theorem extendedGCD_maximal_witness :
    (0 : Int) ≤ 48 ∧ (0 : Int) ≤ 18 ∧ ((48 : Int) ≠ 0 ∨ (18 : Int) ≠ 0) ∧
    ∃ t, extendedGCD 48 18 = .ok t ∧
      ∀ d : Int, 0 ≤ d → t.gcd < d → ¬ (d ∣ 48 ∧ d ∣ 18) :=
  ⟨by decide, by decide, by decide,
    extendedGCD_maximal 48 18 (by decide) (by decide) (by decide)⟩

/-- C6. Argument-order independence: for non-negative `a`, `b` the gcd returned for
`(a, b)` equals the gcd returned for `(b, a)`. -/
theorem extendedGCD_gcd_comm (a b : Int) (ha : 0 ≤ a) (hb : 0 ≤ b) :
    ∃ t u, extendedGCD a b = .ok t ∧ extendedGCD b a = .ok u ∧ t.gcd = u.gcd := by
  obtain ⟨t, ht, hg⟩ := extendedGCD_eq_gcd a b ha hb
  obtain ⟨u, hu, hg'⟩ := extendedGCD_eq_gcd b a hb ha
  exact ⟨t, u, ht, hu, by rw [hg, hg', Int.gcd_comm]⟩

theorem extendedGCD_gcd_comm_witness :
    (0 : Int) ≤ 18 ∧ (0 : Int) ≤ 48 ∧
    ∃ t u, extendedGCD 18 48 = .ok t ∧ extendedGCD 48 18 = .ok u ∧ t.gcd = u.gcd :=
  ⟨by decide, by decide, extendedGCD_gcd_comm 18 48 (by decide) (by decide)⟩

/-- C7. Concrete cases: `(1180, 482)` gives gcd `2` with `1180 * x + 482 * y = 2`,
`(48, 18)` gives gcd `6` with `48 * x + 18 * y = 6`, and `(17, 5)` gives gcd `1` with
`17 * x + 5 * y = 1`, for the returned `x`, `y`. -/
theorem concrete_cases :
    (∃ t, extendedGCD 1180 482 = .ok t ∧ t.gcd = 2 ∧ 1180 * t.x + 482 * t.y = 2) ∧
    (∃ t, extendedGCD 48 18 = .ok t ∧ t.gcd = 6 ∧ 48 * t.x + 18 * t.y = 6) ∧
    (∃ t, extendedGCD 17 5 = .ok t ∧ t.gcd = 1 ∧ 17 * t.x + 5 * t.y = 1) :=
  ⟨⟨{ gcd := 2, x := -29, y := 71 }, by decide, by decide, by decide⟩,
   ⟨{ gcd := 6, x := -1, y := 3 }, by decide, by decide, by decide⟩,
   ⟨{ gcd := 1, x := -2, y := 7 }, by decide, by decide, by decide⟩⟩

/-- C8. Totality: for every pair of integers, of any sign, the function returns a triple,
the same under every budget of at least `b.toNat` iterations; the reason is that each
execution of the body under the guard `b > 0` succeeds and strictly decreases `b`. -/
theorem extendedGCD_total (a b : Int) :
    (∃ t, extendedGCD a b = .ok t ∧
      ∀ fuel, b.toNat ≤ fuel → extendedGCDFuel fuel a b = .ok t) ∧
    (∀ s : State, 0 < s.b → ∃ s', body s = .ok s' ∧ s'.b < s.b) ∧
    (∀ s : State, ∃ s', loop s.b.toNat s = .ok s') := by
  obtain ⟨t, ht, hf, -⟩ := extendedGCD_ok a b
  refine ⟨⟨t, ht, hf⟩, fun s hs => ?_, fun s => loop_ok_of_le _ s (Nat.le_refl _)⟩
  obtain ⟨s', h1, -, -, h2⟩ := body_of_pos s hs
  exact ⟨s', h1, h2⟩

theorem extendedGCD_total_witness :
    ∃ s', body (init (-1180) 482) = .ok s' ∧ s'.b < (init (-1180) 482).b :=
  (extendedGCD_total (-1180) 482).2.1 (init (-1180) 482) (by decide)

/-- C9. No division by zero: the division in the body fails exactly when `b = 0`, and no
run of the loop or of the function, on any operands and under any budget, ends in that
error; every loop-head state with `b > 0`, where the body runs, has a defined quotient. -/
theorem extendedGCD_no_div_by_zero (a b : Int) (fuel : Nat) :
    extendedGCDFuel fuel a b ≠ .error .divByZero ∧
    extendedGCD a b ≠ .error .divByZero ∧
    (∀ s : State, loop fuel s ≠ .error .divByZero) ∧
    (∀ s : State, body s = .error .divByZero ↔ s.b = 0) ∧
    (∀ s ∈ trace fuel (init a b), 0 < s.b → cdiv s.a s.b = .ok (Int.tdiv s.a s.b)) := by
  have key : ∀ n, extendedGCDFuel n a b ≠ .error .divByZero := by
    intro n
    unfold extendedGCDFuel
    by_cases hb : b = 0
    · simp [hb]
    · simp only [hb, if_false]
      have h := loop_ne_divByZero n (init a b)
      cases hl : loop n (init a b) with
      | error e =>
        rw [hl] at h
        intro he
        injection he with he
        exact h (by rw [he])
      | ok s => nofun
  refine ⟨key fuel, key _, loop_ne_divByZero fuel, fun s => ?_, fun s _ hs => ?_⟩
  · simp [body_eq_error_iff]
  · simp [cdiv, ne_of_gt hs]

theorem extendedGCD_no_div_by_zero_witness :
    cdiv (init 1180 482).a (init 1180 482).b = .ok (Int.tdiv (init 1180 482).a (init 1180 482).b) :=
  (extendedGCD_no_div_by_zero 1180 482 5).2.2.2.2 (init 1180 482) (by decide) (by decide)

/-! ## Iteration count -/

/-- Two successive iterations at least halve `b`, which bounds the number of loop-head
states by a logarithm of `b`. -/
theorem trace_length_le_aux : ∀ (m n : Nat) (s : State), s.b.toNat ≤ m → 0 ≤ s.a → 1 ≤ s.b →
    (trace n s).length ≤ 2 * Nat.log 2 s.b.toNat + 3 := by
  intro m
  induction m with
  | zero =>
    intro n s hm _ hb
    omega
  | succ m ih =>
    intro n s hm ha hb
    cases n with
    | zero => simp [trace_zero]
    | succ n =>
      obtain ⟨t, ht, hta, htb, htlt⟩ := body_of_pos s (by omega)
      have htnn : 0 ≤ t.b := by
        rw [htb]
        exact Int.tmod_nonneg _ ha
      rw [trace_succ_of_pos n s t (by omega) ht]
      by_cases h1 : 0 < t.b
      · cases n with
        | zero => simp [trace_zero]
        | succ n =>
          obtain ⟨u, hu, hua, hub, hult⟩ := body_of_pos t h1
          have hunn : 0 ≤ u.b := by
            rw [hub]
            exact Int.tmod_nonneg _ (by omega)
          rw [trace_succ_of_pos n t u h1 hu]
          by_cases h2 : 0 < u.b
          · have hlen := ih n u (by omega) (by omega) (by omega)
            have hq : 1 ≤ Int.tdiv s.b t.b := by
              have h3 := Int.lt_tdiv_add_one_mul_self s.b h1
              by_contra hcon
              have h4 : (Int.tdiv s.b t.b + 1) * t.b ≤ 1 * t.b :=
                mul_le_mul_of_nonneg_right (by omega) htnn
              omega
            have hdef : u.b = s.b - t.b * Int.tdiv s.b t.b := by
              rw [hub, hta, Int.tmod_def]
            have hmul : t.b ≤ t.b * Int.tdiv s.b t.b := by
              have := mul_le_mul_of_nonneg_left hq htnn
              omega
            have hhalf : u.b.toNat * 2 ≤ s.b.toNat := by omega
            have hlog : Nat.log 2 u.b.toNat + 1 ≤ Nat.log 2 s.b.toNat := by
              rw [← Nat.log_mul_base (by decide) (by omega)]
              exact Nat.log_mono_right hhalf
            simp only [List.length_cons]
            omega
          · rw [trace_of_not_pos n u h2]
            simp
      · rw [trace_of_not_pos n t h1]
        simp

theorem trace_length_le (n : Nat) (s : State) (ha : 0 ≤ s.a) (hb : 1 ≤ s.b) :
    (trace n s).length ≤ 2 * Nat.log 2 s.b.toNat + 3 :=
  trace_length_le_aux s.b.toNat n s (Nat.le_refl _) ha hb

/-- On positive operands, under any budget, the loop-head states number at most
`2 * log2 (min a b) + 4`. -/
theorem trace_init_length_le (n : Nat) (a b : Int) (ha : 1 ≤ a) (hb : 1 ≤ b) :
    (trace n (init a b)).length ≤ 2 * Nat.log 2 (min a b).toNat + 4 := by
  by_cases hab : b ≤ a
  · have h := trace_length_le n (init a b) (by show 0 ≤ a; omega) hb
    rw [min_eq_right hab]
    exact Nat.le_succ_of_le h
  · have hlt : a < b := by omega
    rw [min_eq_left (le_of_lt hlt)]
    cases n with
    | zero => simp [trace_zero]
    | succ n =>
      obtain ⟨t, ht, hta, htb, -⟩ := body_of_pos (init a b) (by show 0 < b; omega)
      have htb' : t.b = a := by
        rw [htb]
        exact Int.tmod_eq_of_lt (show 0 ≤ a by omega) hlt
      have hta' : t.a = b := hta
      rw [trace_succ_of_pos n (init a b) t (by show 0 < b; omega) ht]
      have h := trace_length_le n t (by omega) (by omega)
      rw [htb'] at h
      simp only [List.length_cons]
      omega

/-- If the loop-head states under budget `n + 1` number at most `n + 1`, the loop
completes within `n` executions of its body. -/
theorem loop_ok_of_trace_length : ∀ (n : Nat) (s : State), (trace (n + 1) s).length ≤ n + 1 →
    ∃ s', loop n s = .ok s' := by
  intro n
  induction n with
  | zero =>
    intro s hlen
    by_cases h : 0 < s.b
    · obtain ⟨t, ht, -⟩ := body_of_pos s h
      rw [trace_succ_of_pos 0 s t h ht, trace_zero] at hlen
      simp at hlen
    · exact ⟨s, loop_of_not_pos 0 s h⟩
  | succ n ih =>
    intro s hlen
    by_cases h : 0 < s.b
    · obtain ⟨t, ht, -⟩ := body_of_pos s h
      rw [trace_succ_of_pos (n + 1) s t h ht] at hlen
      rw [loop_succ_of_pos n s t h ht]
      exact ih t (by simpa using hlen)
    · exact ⟨s, loop_of_not_pos (n + 1) s h⟩

/-! ## The claims on remainders, iteration count and operand signs -/

/-- C11 (as stated, refuted). For `a = -7`, `b = 2` the truncating quotient is `-3` and the
remainder computed by the body is `-1`, which is not in the range `0 ≤ r < |b|`. -/
theorem remainder_range_counterexample :
    cdiv (-7) 2 = .ok (-3) ∧
    body (init (-7) 2) = .ok { a := 2, b := -1, x2 := 0, x1 := 1, y2 := 1, y1 := 3 } ∧
    ¬ (0 ≤ (-7 : Int) - (-3) * 2 ∧ (-7 : Int) - (-3) * 2 < |2|) := by
  refine ⟨by decide, by decide, ?_⟩
  norm_num

/-- C11 (amended). Remainder range: for every integer `a` and every `b > 0`, the quotient
`q = a / b` (truncating toward zero) and the remainder `r = a - q * b`, which the body
stores as the new `b`, satisfy `|r| < |b|`; for `a ≥ 0` they satisfy `0 ≤ r < |b|`, and
for `a ≤ 0` the remainder is not positive. -/
theorem remainder_range (a b : Int) (hb : 0 < b) :
    ∃ q, cdiv a b = .ok q ∧ q = Int.tdiv a b ∧
      (∀ s : State, s.a = a → s.b = b → ∃ s', body s = .ok s' ∧ s'.b = a - q * b) ∧
      |a - q * b| < |b| ∧
      (0 ≤ a → 0 ≤ a - q * b ∧ a - q * b < |b|) ∧
      (a ≤ 0 → a - q * b ≤ 0) := by
  have hlt : Int.tmod a b < b := Int.tmod_lt_of_pos a hb
  have hgt : -b < Int.tmod a b := by
    have h := Int.tmod_lt_of_pos (-a) hb
    rw [tmod_neg_left] at h
    omega
  have hr : a - Int.tdiv a b * b = Int.tmod a b := sub_tdiv_mul a b
  refine ⟨Int.tdiv a b, by simp [cdiv, ne_of_gt hb], rfl, ?_, ?_, ?_, ?_⟩
  · intro s hsa hsb
    refine ⟨_, body_of_ne s (by omega), ?_⟩
    show s.a - (Int.tdiv s.a s.b * s.b) = _
    rw [hsa, hsb]
  · rw [hr, abs_of_pos hb, abs_lt]
    exact ⟨hgt, hlt⟩
  · intro ha
    rw [hr, abs_of_pos hb]
    exact ⟨Int.tmod_nonneg _ ha, hlt⟩
  · intro ha
    rw [hr]
    have h := Int.tmod_nonneg (a := -a) b (by omega)
    rw [tmod_neg_left] at h
    omega

theorem remainder_range_witness :
    (0 : Int) < 482 ∧
    ∃ q, cdiv 1180 482 = .ok q ∧ q = Int.tdiv 1180 482 ∧
      (∀ s : State, s.a = 1180 → s.b = 482 → ∃ s', body s = .ok s' ∧ s'.b = 1180 - q * 482) ∧
      |1180 - q * 482| < |482| ∧
      (0 ≤ (1180 : Int) → 0 ≤ 1180 - q * 482 ∧ 1180 - q * 482 < |482|) ∧
      ((1180 : Int) ≤ 0 → 1180 - q * 482 ≤ 0) :=
  ⟨by decide, remainder_range 1180 482 (by decide)⟩

/-- C12. Logarithmic iteration count: for `a ≥ 1` and `b ≥ 1` the loop body is executed
at most `2 * ⌊log2 (min a b)⌋ + 3` times, and the loop and the function complete within
that budget with the result of `extendedGCD a b`. -/
theorem iterations_logarithmic (a b : Int) (ha : 1 ≤ a) (hb : 1 ≤ b) :
    iterations a b ≤ 2 * Nat.log 2 (min a b).toNat + 3 ∧
    (∃ s, loop (2 * Nat.log 2 (min a b).toNat + 3) (init a b) = .ok s) ∧
    extendedGCDFuel (2 * Nat.log 2 (min a b).toNat + 3) a b = extendedGCD a b := by
  have hN := trace_init_length_le
  obtain ⟨s, hs⟩ := loop_ok_of_trace_length (2 * Nat.log 2 (min a b).toNat + 3) (init a b)
    (hN _ a b ha hb)
  refine ⟨?_, ⟨s, hs⟩, ?_⟩
  · have h := hN b.toNat a b ha hb
    unfold iterations
    omega
  · have hb0 : b ≠ 0 := by omega
    obtain ⟨s', hs'⟩ := loop_ok_of_le b.toNat (init a b) (Nat.le_refl _)
    have h1 := loop_fuel_mono _ (max b.toNat (2 * Nat.log 2 (min a b).toNat + 3)) _ _
      (le_max_left _ _) hs'
    have h2 := loop_fuel_mono _ (max b.toNat (2 * Nat.log 2 (min a b).toNat + 3)) _ _
      (le_max_right _ _) hs
    rw [h1] at h2
    injection h2 with h2
    subst h2
    unfold extendedGCD
    rw [extendedGCDFuel_of_loop _ a b _ hb0 hs, extendedGCDFuel_of_loop _ a b _ hb0 hs']

theorem iterations_logarithmic_witness :
    (1 : Int) ≤ 1180 ∧ (1 : Int) ≤ 482 ∧
    iterations 1180 482 ≤ 2 * Nat.log 2 (min (1180 : Int) 482).toNat + 3 ∧
    (∃ s, loop (2 * Nat.log 2 (min (1180 : Int) 482).toNat + 3) (init 1180 482) = .ok s) ∧
    extendedGCDFuel (2 * Nat.log 2 (min (1180 : Int) 482).toNat + 3) 1180 482 =
      extendedGCD 1180 482 :=
  ⟨by decide, by decide, iterations_logarithmic 1180 482 (by decide) (by decide)⟩

/-- C13. Latent overflow: the 64-bit operands `a = -2 ^ 63`, `b = 1` lead, in the first
execution of the body, to the subtraction `y2 - q * y1 = 2 ^ 63`, which is outside the
64-bit range, so that the wrapping body differs there from the exact one. -/
theorem latent_overflow :
    ∃ a b : Int, InRange64 a ∧ InRange64 b ∧
      ∃ s ∈ trace b.toNat (init a b), 0 < s.b ∧
        ∃ vs, intermediates s = .ok vs ∧ (∃ v ∈ vs, ¬ InRange64 v) ∧ body64 s ≠ body s :=
  ⟨-2 ^ 63, 1, by decide, by decide, init (-2 ^ 63) 1, by decide, by decide,
    [-2 ^ 63, -2 ^ 63, 0, 0, 1, -2 ^ 63, 2 ^ 63], by decide, ⟨2 ^ 63, by decide, by decide⟩,
    by decide⟩

/-- C16. Negative second operand: for every integer `a` and every `b < 0` the loop body is
never executed and the function returns exactly `(a, 1, 0)`, under every budget. -/
theorem extendedGCD_neg_divisor (a b : Int) (hb : b < 0) :
    extendedGCD a b = .ok { gcd := a, x := 1, y := 0 } ∧
    (∀ fuel, extendedGCDFuel fuel a b = .ok { gcd := a, x := 1, y := 0 }) ∧
    (∀ fuel, trace fuel (init a b) = [init a b]) ∧
    iterations a b = 0 := by
  have hg : ¬ 0 < (init a b).b := by
    show ¬ 0 < b
    omega
  have key : ∀ fuel, extendedGCDFuel fuel a b = .ok { gcd := a, x := 1, y := 0 } := by
    intro fuel
    rw [extendedGCDFuel_of_loop fuel a b (init a b) (by omega) (loop_of_not_pos fuel _ hg)]
    rfl
  refine ⟨key _, key, fun fuel => trace_of_not_pos fuel _ hg, ?_⟩
  unfold iterations
  rw [trace_of_not_pos _ _ hg]
  rfl

theorem extendedGCD_neg_divisor_witness :
    (-6 : Int) < 0 ∧
    extendedGCD 4 (-6) = .ok { gcd := 4, x := 1, y := 0 } ∧
    (∀ fuel, extendedGCDFuel fuel 4 (-6) = .ok { gcd := 4, x := 1, y := 0 }) ∧
    (∀ fuel, trace fuel (init 4 (-6)) = [init 4 (-6)]) ∧
    iterations 4 (-6) = 0 :=
  ⟨by decide, extendedGCD_neg_divisor 4 (-6) (by decide)⟩

/-! ## Size of the coefficients -/

/-- The locals after one execution of the body under the guard, field by field. -/
theorem body_fields (s s' : State) (hpos : 0 < s.b) (hb : body s = .ok s') :
    s'.a = s.b ∧ s'.b = s.a - Int.tdiv s.a s.b * s.b ∧
    s'.x2 = s.x1 ∧ s'.x1 = s.x2 - Int.tdiv s.a s.b * s.x1 ∧
    s'.y2 = s.y1 ∧ s'.y1 = s.y2 - Int.tdiv s.a s.b * s.y1 := by
  rw [body_of_ne s (by omega)] at hb
  injection hb with hb
  subst hb
  exact ⟨rfl, rfl, rfl, rfl, rfl, rfl⟩

/-- Quotient and remainder of the truncating division on a non-negative dividend. -/
theorem tdiv_facts (a b : Int) (ha : 0 ≤ a) (hb : 0 < b) :
    0 ≤ Int.tdiv a b ∧ Int.tdiv a b ≤ a ∧ 0 ≤ Int.tdiv a b * b ∧ Int.tdiv a b * b ≤ a ∧
    0 ≤ a - Int.tdiv a b * b ∧ a - Int.tdiv a b * b < b := by
  have hq : 0 ≤ Int.tdiv a b := Int.tdiv_nonneg ha (le_of_lt hb)
  have hr : 0 ≤ a - Int.tdiv a b * b := by
    rw [sub_tdiv_mul]
    exact Int.tmod_nonneg _ ha
  have hlt : a - Int.tdiv a b * b < b := by
    rw [sub_tdiv_mul]
    exact Int.tmod_lt_of_pos _ hb
  have hqb : 0 ≤ Int.tdiv a b * b := mul_nonneg hq (le_of_lt hb)
  have hle : Int.tdiv a b * 1 ≤ Int.tdiv a b * b := mul_le_mul_of_nonneg_left (by omega) hq
  refine ⟨hq, by omega, hqb, by omega, hr, hlt⟩

theorem coeffInv_init (a b : Int) (ha : 0 ≤ a) (hb : 0 ≤ b) : CoeffInv a b (init a b) := by
  refine ⟨ha, hb, Or.inl ?_⟩
  simp [init]

theorem body_coeffInv (a0 b0 : Int) (s s' : State) (hs : CoeffInv a0 b0 s) (hpos : 0 < s.b)
    (hb : body s = .ok s') : CoeffInv a0 b0 s' := by
  obtain ⟨e1, e2, e3, e4, e5, e6⟩ := body_fields s s' hpos hb
  obtain ⟨ha, -, hd⟩ := hs
  obtain ⟨hq, -, -, -, hr, -⟩ := tdiv_facts s.a s.b ha hpos
  refine ⟨by omega, by omega, ?_⟩
  rw [e1, e2, e3, e4, e5, e6]
  rcases hd with ⟨h1, h2, h3, h4, h5, h6⟩ | ⟨h1, h2, h3, h4, h5, h6⟩
  · refine Or.inr ⟨h2, ?_, h4, ?_, ?_, ?_⟩
    · nlinarith [mul_nonneg hq (neg_nonneg.mpr h2)]
    · nlinarith [mul_nonneg hq h4]
    · linear_combination h5
    · linear_combination h6
  · refine Or.inl ⟨h2, ?_, h4, ?_, ?_, ?_⟩
    · nlinarith [mul_nonneg hq h2]
    · nlinarith [mul_nonneg hq (neg_nonneg.mpr h4)]
    · linear_combination h5
    · linear_combination h6

/-- The operands are recovered from the running values and the absolute values of the
coefficients. -/
theorem coeffInv_abs (a0 b0 : Int) (s : State) (hs : CoeffInv a0 b0 s) :
    s.a * |s.x1| + s.b * |s.x2| = b0 ∧ s.a * |s.y1| + s.b * |s.y2| = a0 := by
  obtain ⟨-, -, hd⟩ := hs
  rcases hd with ⟨h1, h2, h3, h4, h5, h6⟩ | ⟨h1, h2, h3, h4, h5, h6⟩
  · rw [abs_of_nonneg h1, abs_of_nonpos h2, abs_of_nonpos h3, abs_of_nonneg h4]
    constructor
    · linear_combination h5
    · linear_combination h6
  · rw [abs_of_nonpos h1, abs_of_nonneg h2, abs_of_nonneg h3, abs_of_nonpos h4]
    constructor
    · linear_combination h5
    · linear_combination h6

/-- The products `q * x1`, `q * y1` are no larger in absolute value than the new
coefficients they go into, because of the opposite signs. -/
theorem coeffInv_products (a0 b0 : Int) (s : State) (hs : CoeffInv a0 b0 s) (q : Int)
    (hq : 0 ≤ q) :
    |q * s.x1| ≤ |s.x2 - q * s.x1| ∧ |q * s.y1| ≤ |s.y2 - q * s.y1| := by
  obtain ⟨-, -, hd⟩ := hs
  rcases hd with ⟨h1, h2, h3, h4, -, -⟩ | ⟨h1, h2, h3, h4, -, -⟩
  · have p1 : q * s.x1 ≤ 0 := mul_nonpos_of_nonneg_of_nonpos hq h2
    have p2 : 0 ≤ q * s.y1 := mul_nonneg hq h4
    rw [abs_of_nonpos p1, abs_of_nonneg p2, abs_of_nonneg (by omega), abs_of_nonpos (by omega)]
    constructor <;> omega
  · have p1 : 0 ≤ q * s.x1 := mul_nonneg hq h2
    have p2 : q * s.y1 ≤ 0 := mul_nonpos_of_nonneg_of_nonpos hq h4
    rw [abs_of_nonneg p1, abs_of_nonpos p2, abs_of_nonpos (by omega), abs_of_nonneg (by omega)]
    constructor <;> omega

/-- Where the running `a` is positive, the coefficients `x1`, `y1` are bounded by the
operands. -/
theorem coeffInv_le (a0 b0 : Int) (s : State) (hs : CoeffInv a0 b0 s) (ha : 1 ≤ s.a) :
    |s.x1| ≤ b0 ∧ |s.y1| ≤ a0 := by
  obtain ⟨h1, h2⟩ := coeffInv_abs a0 b0 s hs
  obtain ⟨-, hb, -⟩ := hs
  have p1 : 1 * |s.x1| ≤ s.a * |s.x1| := mul_le_mul_of_nonneg_right ha (abs_nonneg _)
  have p2 : 1 * |s.y1| ≤ s.a * |s.y1| := mul_le_mul_of_nonneg_right ha (abs_nonneg _)
  have p3 : 0 ≤ s.b * |s.x2| := mul_nonneg hb (abs_nonneg _)
  have p4 : 0 ≤ s.b * |s.y2| := mul_nonneg hb (abs_nonneg _)
  constructor <;> omega

theorem boundInv_init (a b : Int) (hb : 1 ≤ b) : BoundInv (max a b) (init a b) := by
  have h1 : (1 : Int) ≤ max a b := le_trans hb (le_max_right a b)
  refine ⟨le_max_left a b, le_max_right a b, ?_, ?_, ?_, ?_⟩
  · show |(0 : Int)| ≤ _
    rw [abs_zero]
    omega
  · show |(1 : Int)| ≤ _
    rw [abs_one]
    exact h1
  · show |(1 : Int)| ≤ _
    rw [abs_one]
    exact h1
  · show |(0 : Int)| ≤ _
    rw [abs_zero]
    omega

theorem body_boundInv (a0 b0 : Int) (s s' : State)
    (hs : CoeffInv a0 b0 s ∧ BoundInv (max a0 b0) s) (hpos : 0 < s.b)
    (hb : body s = .ok s') : CoeffInv a0 b0 s' ∧ BoundInv (max a0 b0) s' := by
  obtain ⟨hc, -, hbM, hx1, -, hy1, -⟩ := hs
  have hc' := body_coeffInv a0 b0 s s' hc hpos hb
  obtain ⟨e1, e2, e3, -, e5, -⟩ := body_fields s s' hpos hb
  obtain ⟨-, -, -, -, -, hlt⟩ := tdiv_facts s.a s.b hc.1 hpos
  obtain ⟨k1, k2⟩ := coeffInv_le a0 b0 s' hc' (by omega)
  have m1 := le_max_left a0 b0
  have m2 := le_max_right a0 b0
  refine ⟨hc', by omega, by omega, by omega, ?_, by omega, ?_⟩
  · rw [e3]
    exact hx1
  · rw [e5]
    exact hy1

/-- Under the invariants every arithmetic result of one execution of the body is bounded
by the larger operand. -/
theorem intermediates_bound (a0 b0 : Int) (s : State)
    (hs : CoeffInv a0 b0 s ∧ BoundInv (max a0 b0) s) (hpos : 0 < s.b) :
    intermediates s = .ok [Int.tdiv s.a s.b, Int.tdiv s.a s.b * s.b,
      s.a - (Int.tdiv s.a s.b * s.b), Int.tdiv s.a s.b * s.x1,
      s.x2 - (Int.tdiv s.a s.b * s.x1), Int.tdiv s.a s.b * s.y1,
      s.y2 - (Int.tdiv s.a s.b * s.y1)] ∧
    |Int.tdiv s.a s.b| ≤ max a0 b0 ∧ |Int.tdiv s.a s.b * s.b| ≤ max a0 b0 ∧
    |s.a - (Int.tdiv s.a s.b * s.b)| ≤ max a0 b0 ∧ |Int.tdiv s.a s.b * s.x1| ≤ max a0 b0 ∧
    |s.x2 - (Int.tdiv s.a s.b * s.x1)| ≤ max a0 b0 ∧ |Int.tdiv s.a s.b * s.y1| ≤ max a0 b0 ∧
    |s.y2 - (Int.tdiv s.a s.b * s.y1)| ≤ max a0 b0 := by
  obtain ⟨t, ht, -⟩ := body_of_pos s hpos
  obtain ⟨-, -, -, g1, -, g2, -⟩ := body_boundInv a0 b0 s t hs hpos ht
  obtain ⟨-, -, -, e4, -, e6⟩ := body_fields s t hpos ht
  obtain ⟨hc, haM, hbM, -⟩ := hs
  obtain ⟨q1, q2, q3, q4, q5, q6⟩ := tdiv_facts s.a s.b hc.1 hpos
  obtain ⟨p1, p2⟩ := coeffInv_products a0 b0 s hc _ q1
  rw [e4] at g1
  rw [e6] at g2
  refine ⟨by simp [intermediates, cdiv, ne_of_gt hpos], ?_, ?_, ?_, le_trans p1 g1, g1,
    le_trans p2 g2, g2⟩
  · rw [abs_of_nonneg q1]
    omega
  · rw [abs_of_nonneg q3]
    omega
  · rw [abs_of_nonneg q5]
    omega

/-! ## Agreement of the 64-bit computation with the exact one -/

theorem wrap64_of_abs_le (n M : Int) (h : |n| ≤ M) (hM : M ≤ 2 ^ 63 - 1) : wrap64 n = n := by
  obtain ⟨h1, h2⟩ := abs_le.mp h
  unfold wrap64
  omega

theorem body64_eq_body (a0 b0 : Int) (hM : max a0 b0 ≤ 2 ^ 63 - 1) (s : State)
    (hs : CoeffInv a0 b0 s ∧ BoundInv (max a0 b0) s) (hpos : 0 < s.b) :
    body64 s = body s := by
  obtain ⟨-, w1, w2, w3, w4, w5, w6, w7⟩ := intermediates_bound a0 b0 s hs hpos
  have hne : s.b ≠ 0 := by omega
  have e64 : body64 s = .ok
      { a := s.b, b := wrap64 (s.a - wrap64 (wrap64 (Int.tdiv s.a s.b) * s.b)),
        x2 := s.x1, x1 := wrap64 (s.x2 - wrap64 (wrap64 (Int.tdiv s.a s.b) * s.x1)),
        y2 := s.y1, y1 := wrap64 (s.y2 - wrap64 (wrap64 (Int.tdiv s.a s.b) * s.y1)) } := by
    simp [body64, cdiv64, hne]
  rw [e64, body_of_ne s hne, wrap64_of_abs_le _ _ w1 hM, wrap64_of_abs_le _ _ w2 hM,
    wrap64_of_abs_le _ _ w3 hM, wrap64_of_abs_le _ _ w4 hM, wrap64_of_abs_le _ _ w5 hM,
    wrap64_of_abs_le _ _ w6 hM, wrap64_of_abs_le _ _ w7 hM]

theorem loop64_eq_loop (a0 b0 : Int) (hM : max a0 b0 ≤ 2 ^ 63 - 1) :
    ∀ (n : Nat) (s : State), CoeffInv a0 b0 s ∧ BoundInv (max a0 b0) s →
      loop64 n s = loop n s := by
  intro n
  induction n with
  | zero =>
    intro s _
    unfold loop64 loop
    rfl
  | succ n ih =>
    intro s hs
    by_cases h : 0 < s.b
    · obtain ⟨t, ht, -⟩ := body_of_pos s h
      have h64 : body64 s = .ok t := by
        rw [body64_eq_body a0 b0 hM s hs h]
        exact ht
      rw [loop_succ_of_pos n s t h ht, loop64]
      simp only [h, if_true, h64]
      exact ih t (body_boundInv a0 b0 s t hs h ht)
    · rw [loop_of_not_pos _ _ h, loop64]
      simp [h]

/-- C14. No overflow on non-negative operands: for `a ≥ 0`, `b > 0`, at every loop-head
state the stored `x1`, `x2`, `y1`, `y2` and, where the body runs, the values `q`, `q * b`,
`r`, `q * x1`, new `x`, `q * y1`, new `y` are at most `max a b` in absolute value; hence
for `0 ≤ a, b ≤ 2 ^ 63 - 1` the wrapping 64-bit computation returns the triple of the
exact one. -/
theorem no_overflow_nonneg (a b : Int) (ha : 0 ≤ a) (hb : 0 ≤ b) :
    (0 < b → ∀ fuel, ∀ s ∈ trace fuel (init a b),
      |s.x1| ≤ max a b ∧ |s.x2| ≤ max a b ∧ |s.y1| ≤ max a b ∧ |s.y2| ≤ max a b ∧
      (0 < s.b → ∃ vs, intermediates s = .ok vs ∧ vs.length = 7 ∧
        ∀ v ∈ vs, |v| ≤ max a b)) ∧
    (a ≤ 2 ^ 63 - 1 → b ≤ 2 ^ 63 - 1 →
      extendedGCD64 a b = extendedGCD a b ∧
      ∀ fuel, extendedGCD64Fuel fuel a b = extendedGCDFuel fuel a b) := by
  constructor
  · intro hpos fuel s hmem
    have hinv : CoeffInv a b s ∧ BoundInv (max a b) s :=
      trace_induction (fun s => CoeffInv a b s ∧ BoundInv (max a b) s)
        (body_boundInv a b) fuel (init a b)
        ⟨coeffInv_init a b ha hb, boundInv_init a b (by omega)⟩ s hmem
    have hbound := hinv.2
    obtain ⟨-, -, h1, h2, h3, h4⟩ := hbound
    refine ⟨h1, h2, h3, h4, fun hs => ?_⟩
    obtain ⟨e, w1, w2, w3, w4, w5, w6, w7⟩ := intermediates_bound a b s hinv hs
    refine ⟨_, e, rfl, ?_⟩
    intro v hv
    simp only [List.mem_cons, List.mem_singleton, List.not_mem_nil, or_false] at hv
    rcases hv with rfl | rfl | rfl | rfl | rfl | rfl | rfl <;> assumption
  · intro hA hB
    have key : ∀ fuel, extendedGCD64Fuel fuel a b = extendedGCDFuel fuel a b := by
      intro fuel
      unfold extendedGCD64Fuel extendedGCDFuel
      by_cases hb0 : b = 0
      · simp [hb0]
      · rw [if_neg hb0, if_neg hb0, loop64_eq_loop a b (max_le hA hB) fuel (init a b)
          ⟨coeffInv_init a b ha hb, boundInv_init a b (by omega)⟩]
    exact ⟨key _, key⟩

theorem no_overflow_nonneg_witness :
    (0 : Int) ≤ 1180 ∧ (0 : Int) ≤ 482 ∧
    (|(-29 : Int)| ≤ max 1180 482 ∧ |(9 : Int)| ≤ max 1180 482 ∧
      |(71 : Int)| ≤ max 1180 482 ∧ |(-22 : Int)| ≤ max 1180 482) ∧
    extendedGCD64 1180 482 = extendedGCD 1180 482 :=
  ⟨by decide, by decide,
    have h := (no_overflow_nonneg 1180 482 (by decide) (by decide)).1 (by decide) 4
      { a := 16, b := 2, x1 := -29, x2 := 9, y1 := 71, y2 := -22 } (by decide)
    ⟨h.1, h.2.1, h.2.2.1, h.2.2.2.1⟩,
    ((no_overflow_nonneg 1180 482 (by decide) (by decide)).2 (by decide) (by decide)).1⟩

/-! ## Size of the returned coefficients -/

theorem runInv_init (a b : Int) (ha : 0 ≤ a) (hb : 0 ≤ b) : RunInv a b (init a b) :=
  ⟨coeffInv_init a b ha hb, Or.inl rfl⟩

theorem body_runInv (a0 b0 : Int) (ha0 : 1 ≤ a0) (hb0 : 1 ≤ b0) (s s' : State)
    (hs : RunInv a0 b0 s) (hpos : 0 < s.b) (hb : body s = .ok s') : RunInv a0 b0 s' := by
  obtain ⟨hc, hd⟩ := hs
  have hc' := body_coeffInv a0 b0 s s' hc hpos hb
  obtain ⟨e1, e2, e3, -, e5, -⟩ := body_fields s s' hpos hb
  obtain ⟨-, -, -, -, -, hlt⟩ := tdiv_facts s.a s.b hc.1 hpos
  have hord : s'.b < s'.a := by
    rw [e1, e2]
    exact hlt
  refine ⟨hc', ?_⟩
  rcases hd with rfl | ⟨hab, rfl⟩ | ⟨h1, -, -⟩
  · by_cases hab : a0 < b0
    · refine Or.inr (Or.inl ⟨hab, ?_⟩)
      rw [body_of_ne _ (ne_of_gt hpos)] at hb
      injection hb with hb
      rw [← hb]
      simp [init, Int.tdiv_eq_zero_of_lt (show 0 ≤ a0 by omega) hab]
    · refine Or.inr (Or.inr ⟨hord, ?_, ?_⟩)
      · rw [e3]
        show s'.a * |(0 : Int)| ≤ b0
        rw [abs_zero, mul_zero]
        omega
      · rw [e5, e1]
        show b0 * |(1 : Int)| ≤ a0
        rw [abs_one, mul_one]
        omega
  · refine Or.inr (Or.inr ⟨hord, ?_, ?_⟩)
    · rw [e3, e1]
      show a0 * |(1 : Int)| ≤ b0
      rw [abs_one, mul_one]
      omega
    · rw [e5]
      show s'.a * |(0 : Int)| ≤ a0
      rw [abs_zero, mul_zero]
      omega
  · obtain ⟨k1, k2⟩ := coeffInv_abs a0 b0 s hc
    have p1 : s.b * |s.x1| ≤ s.a * |s.x1| :=
      mul_le_mul_of_nonneg_right (le_of_lt h1) (abs_nonneg _)
    have p2 : s.b * |s.y1| ≤ s.a * |s.y1| :=
      mul_le_mul_of_nonneg_right (le_of_lt h1) (abs_nonneg _)
    have p3 : 0 ≤ s.b * |s.x2| := mul_nonneg hc.2.1 (abs_nonneg _)
    have p4 : 0 ≤ s.b * |s.y2| := mul_nonneg hc.2.1 (abs_nonneg _)
    refine Or.inr (Or.inr ⟨hord, ?_, ?_⟩)
    · rw [e3, e1]
      omega
    · rw [e5, e1]
      omega

/-- C15. Small coefficients: for `a ≥ 1` and `b ≥ 1` the returned triple `(g, x, y)` has
`g > 0`, `|x| ≤ b / g` and `|y| ≤ a / g`. -/
theorem small_coefficients (a b : Int) (ha : 1 ≤ a) (hb : 1 ≤ b) :
    ∃ t, extendedGCD a b = .ok t ∧ 0 < t.gcd ∧ |t.x| ≤ b / t.gcd ∧ |t.y| ≤ a / t.gcd := by
  obtain ⟨t, ht, -, -, hne⟩ := extendedGCD_ok a b
  obtain ⟨s, hs, rfl⟩ := hne (by omega)
  refine ⟨_, ht, ?_⟩
  obtain ⟨⟨hc, hd⟩, hexit⟩ := loop_induction (RunInv a b) (body_runInv a b ha hb) _ _ s
    (runInv_init a b (by omega) (by omega)) hs
  rcases hd with rfl | ⟨-, rfl⟩ | ⟨h1, h2, h3⟩
  · have h : b ≤ 0 := hexit
    omega
  · have h : a ≤ 0 := hexit
    omega
  · have hpos : 0 < s.a := lt_of_le_of_lt hc.2.1 h1
    refine ⟨hpos, ?_, ?_⟩
    · exact Int.le_ediv_of_mul_le hpos (by rw [mul_comm]; exact h2)
    · exact Int.le_ediv_of_mul_le hpos (by rw [mul_comm]; exact h3)

theorem small_coefficients_witness :
    (1 : Int) ≤ 1180 ∧ (1 : Int) ≤ 482 ∧
    ∃ t, extendedGCD 1180 482 = .ok t ∧ 0 < t.gcd ∧ |t.x| ≤ 482 / t.gcd ∧
      |t.y| ≤ 1180 / t.gcd :=
  ⟨by decide, by decide, small_coefficients 1180 482 (by decide) (by decide)⟩

/-! ## The loop invariant in the 64-bit computation -/

theorem loop64_of_not_pos (n : Nat) (s : State) (h : ¬ 0 < s.b) : loop64 n s = .ok s := by
  unfold loop64
  simp [h]

theorem loop64_zero_of_pos (s : State) (h : 0 < s.b) : loop64 0 s = .error .outOfFuel := by
  unfold loop64
  simp [h]

theorem loop64_succ_of_pos (n : Nat) (s s' : State) (h : 0 < s.b) (hb : body64 s = .ok s') :
    loop64 (n + 1) s = loop64 n s' := by
  rw [loop64]
  simp [h, hb]

theorem trace64_of_not_pos (n : Nat) (s : State) (h : ¬ 0 < s.b) : trace64 n s = [s] := by
  unfold trace64
  simp [h]

theorem trace64_zero (s : State) : trace64 0 s = [s] := by
  unfold trace64
  simp

theorem trace64_succ_of_pos (n : Nat) (s s' : State) (h : 0 < s.b) (hb : body64 s = .ok s') :
    trace64 (n + 1) s = s :: trace64 n s' := by
  rw [trace64]
  simp [h, hb]

theorem wrap64_of_inRange (n : Int) (h : InRange64 n) : wrap64 n = n := by
  obtain ⟨h1, h2⟩ := h
  unfold wrap64
  omega

/-- Under the invariants of a run on non-negative 64-bit operands the wrapping run passes
through the loop-head states of the exact one. -/
theorem trace64_eq_trace (a0 b0 : Int) (hM : max a0 b0 ≤ 2 ^ 63 - 1) :
    ∀ (n : Nat) (s : State), CoeffInv a0 b0 s ∧ BoundInv (max a0 b0) s →
      trace64 n s = trace n s := by
  intro n
  induction n with
  | zero =>
    intro s _
    rw [trace64_zero, trace_zero]
  | succ n ih =>
    intro s hs
    by_cases h : 0 < s.b
    · obtain ⟨t, ht, -⟩ := body_of_pos s h
      have h64 : body64 s = .ok t := by
        rw [body64_eq_body a0 b0 hM s hs h]
        exact ht
      rw [trace_succ_of_pos n s t h ht, trace64_succ_of_pos n s t h h64,
        ih t (body_boundInv a0 b0 s t hs h ht)]
    · rw [trace_of_not_pos _ _ h, trace64_of_not_pos _ _ h]

/-- On a negative `a` and positive `b`, other than `a = -2 ^ 63` with `b = 1`, the first
execution of the body does not overflow. -/
theorem body64_init_of_neg (a0 b0 : Int) (hA : InRange64 a0) (hB : InRange64 b0)
    (ha : a0 < 0) (hb : 0 < b0) (hne : ¬ (a0 = -2 ^ 63 ∧ b0 = 1)) :
    body64 (init a0 b0) = body (init a0 b0) := by
  obtain ⟨hA1, hA2⟩ := hA
  obtain ⟨hB1, hB2⟩ := hB
  obtain ⟨q1, q2, q3, q4, q5, q6⟩ := tdiv_facts (-a0) b0 (by omega) hb
  have hq : Int.tdiv a0 b0 = -Int.tdiv (-a0) b0 := by
    rw [Int.neg_tdiv, neg_neg]
  have hmul : -Int.tdiv (-a0) b0 * b0 = -(Int.tdiv (-a0) b0 * b0) := by ring
  have hsmall : Int.tdiv (-a0) b0 < 2 ^ 63 := by
    by_cases hb1 : b0 = 1
    · have : a0 ≠ -2 ^ 63 := fun h => hne ⟨h, hb1⟩
      omega
    · have h2 : Int.tdiv (-a0) b0 * 2 ≤ Int.tdiv (-a0) b0 * b0 :=
        mul_le_mul_of_nonneg_left (by omega) q1
      omega
  have w1 : wrap64 (Int.tdiv a0 b0) = Int.tdiv a0 b0 :=
    wrap64_of_inRange _ ⟨by omega, by omega⟩
  have w2 : wrap64 (Int.tdiv a0 b0 * b0) = Int.tdiv a0 b0 * b0 :=
    wrap64_of_inRange _ ⟨by rw [hq, hmul]; omega, by rw [hq, hmul]; omega⟩
  have w3 : wrap64 (a0 - Int.tdiv a0 b0 * b0) = a0 - Int.tdiv a0 b0 * b0 :=
    wrap64_of_inRange _ ⟨by rw [hq, hmul]; omega, by rw [hq, hmul]; omega⟩
  have w4 : wrap64 (0 - Int.tdiv a0 b0) = 0 - Int.tdiv a0 b0 :=
    wrap64_of_inRange _ ⟨by omega, by omega⟩
  have w5 : wrap64 0 = 0 := by decide
  have w6 : wrap64 1 = 1 := by decide
  have hne0 : b0 ≠ 0 := by omega
  simp only [body64, cdiv64, body, cdiv, init, if_neg hne0, mul_zero, mul_one, sub_zero,
    w1, w2, w3, w4, w5, w6]

/-- On 64-bit operands other than `a = -2 ^ 63` with `b = 1` the wrapping run coincides
with the exact one: same loop-head states, same outcome of the loop, and the same result
of the body at every loop-head state where the body runs. -/
theorem run64_eq_run (a0 b0 : Int) (hA : InRange64 a0) (hB : InRange64 b0)
    (hne : ¬ (a0 = -2 ^ 63 ∧ b0 = 1)) (fuel : Nat) :
    trace64 fuel (init a0 b0) = trace fuel (init a0 b0) ∧
    loop64 fuel (init a0 b0) = loop fuel (init a0 b0) ∧
    (∀ s ∈ trace fuel (init a0 b0), 0 < s.b → body64 s = body s) := by
  by_cases hb : 0 < b0
  · by_cases ha : 0 ≤ a0
    · have hM : max a0 b0 ≤ 2 ^ 63 - 1 := max_le (by have := hA.2; omega) (by have := hB.2; omega)
      have hinit : CoeffInv a0 b0 (init a0 b0) ∧ BoundInv (max a0 b0) (init a0 b0) :=
        ⟨coeffInv_init a0 b0 ha (le_of_lt hb), boundInv_init a0 b0 (by omega)⟩
      refine ⟨trace64_eq_trace a0 b0 hM fuel _ hinit, loop64_eq_loop a0 b0 hM fuel _ hinit,
        fun s hs hpos => ?_⟩
      exact body64_eq_body a0 b0 hM s
        (trace_induction (fun s => CoeffInv a0 b0 s ∧ BoundInv (max a0 b0) s)
          (body_boundInv a0 b0) fuel (init a0 b0) hinit s hs) hpos
    · have hg : 0 < (init a0 b0).b := hb
      have h64 := body64_init_of_neg a0 b0 hA hB (by omega) hb hne
      obtain ⟨t, ht, -, htb, -⟩ := body_of_pos (init a0 b0) hg
      have htnp : ¬ 0 < t.b := by
        have h := Int.tmod_nonneg (a := -a0) b0 (by omega)
        rw [tmod_neg_left] at h
        have htb' : t.b = Int.tmod a0 b0 := htb
        omega
      cases fuel with
      | zero =>
        refine ⟨by rw [trace64_zero, trace_zero],
          by rw [loop64_zero_of_pos _ hg, loop_zero_of_pos _ hg], fun s hs _ => ?_⟩
        rw [trace_zero, List.mem_singleton] at hs
        rw [hs]
        exact h64
      | succ n =>
        refine ⟨?_, ?_, fun s hs hpos => ?_⟩
        · rw [trace64_succ_of_pos n _ t hg (by rw [h64]; exact ht),
            trace_succ_of_pos n _ t hg ht, trace64_of_not_pos _ _ htnp,
            trace_of_not_pos _ _ htnp]
        · rw [loop64_succ_of_pos n _ t hg (by rw [h64]; exact ht),
            loop_succ_of_pos n _ t hg ht, loop64_of_not_pos _ _ htnp,
            loop_of_not_pos _ _ htnp]
        · rw [trace_succ_of_pos n _ t hg ht, trace_of_not_pos _ _ htnp] at hs
          simp only [List.mem_cons, List.mem_singleton, List.not_mem_nil, or_false] at hs
          rcases hs with rfl | rfl
          · exact h64
          · exact absurd hpos htnp
  · have hg : ¬ 0 < (init a0 b0).b := hb
    refine ⟨by rw [trace64_of_not_pos _ _ hg, trace_of_not_pos _ _ hg],
      by rw [loop64_of_not_pos _ _ hg, loop_of_not_pos _ _ hg], fun s hs hpos => ?_⟩
    rw [trace_of_not_pos _ _ hg, List.mem_singleton] at hs
    rw [hs] at hpos
    exact absurd hpos hg

/-- On all 64-bit operands, of any sign, the wrapping computation returns what the exact
one returns, under every budget: at `a = -2 ^ 63`, `b = 1` the value that overflows is
stored in `y1` and is not part of the result. -/
theorem extendedGCD64Fuel_eq (a b : Int) (hA : InRange64 a) (hB : InRange64 b) (fuel : Nat) :
    extendedGCD64Fuel fuel a b = extendedGCDFuel fuel a b := by
  by_cases hne : a = -2 ^ 63 ∧ b = 1
  · obtain ⟨rfl, rfl⟩ := hne
    cases fuel with
    | zero => decide
    | succ n =>
      have h64 : body64 (init (-2 ^ 63) 1) =
          .ok { a := 1, b := 0, x2 := 0, x1 := 1, y2 := 1, y1 := -2 ^ 63 } := by decide
      have hex : body (init (-2 ^ 63) 1) =
          .ok { a := 1, b := 0, x2 := 0, x1 := 1, y2 := 1, y1 := 2 ^ 63 } := by decide
      have hg : 0 < (init (-2 ^ 63) 1).b := by decide
      unfold extendedGCD64Fuel extendedGCDFuel
      rw [if_neg (by decide), if_neg (by decide), loop64_succ_of_pos n _ _ hg h64,
        loop_succ_of_pos n _ _ hg hex, loop64_of_not_pos _ _ (by decide),
        loop_of_not_pos _ _ (by decide)]
  · unfold extendedGCD64Fuel extendedGCDFuel
    rw [(run64_eq_run a b hA hB hne fuel).2.1]

/-- C10 (as stated, refuted). On the 64-bit operands `a0 = -2 ^ 63`, `b0 = 1`, with
`b0 ≠ 0`, the loop-head state after the first iteration of the 64-bit computation holds
`b = 0`, `x1 = 1`, `y1 = -2 ^ 63`, for which `b = a0 * x1 + b0 * y1` fails. -/
theorem loop_invariant_counterexample :
    InRange64 (-2 ^ 63) ∧ InRange64 1 ∧ (1 : Int) ≠ 0 ∧
    body64 (init (-2 ^ 63) 1) =
      .ok { a := 1, b := 0, x2 := 0, x1 := 1, y2 := 1, y1 := -2 ^ 63 } ∧
    ∃ s ∈ trace64 (1 : Int).toNat (init (-2 ^ 63) 1),
      ¬ BezoutInv (-2 ^ 63) 1 s ∧ s.b ≠ (-2 ^ 63) * s.x1 + 1 * s.y1 :=
  ⟨by decide, by decide, by decide, by decide,
    { a := 1, b := 0, x2 := 0, x1 := 1, y2 := 1, y1 := -2 ^ 63 }, by decide, by decide,
    by decide⟩

/-- C10 (amended). Loop invariant: for 64-bit operands `a0`, `b0` with `b0 ≠ 0`, other
than `a0 = -2 ^ 63` with `b0 = 1`, the relation `a = a0 * x2 + b0 * y2` and
`b = a0 * x1 + b0 * y1` holds of the initial locals, holds at every loop-head state of the
64-bit computation, is kept by every execution of the wrapping body in that run, and
holds on exit from the loop. -/
theorem loop_invariant64 (a0 b0 : Int) (hA : InRange64 a0) (hB : InRange64 b0)
    (hb : b0 ≠ 0) (hne : ¬ (a0 = -2 ^ 63 ∧ b0 = 1)) :
    BezoutInv a0 b0 (init a0 b0) ∧
    (∀ fuel, ∀ s ∈ trace64 fuel (init a0 b0), BezoutInv a0 b0 s) ∧
    (∀ fuel, ∀ s ∈ trace64 fuel (init a0 b0), ∀ s', 0 < s.b → body64 s = .ok s' →
      BezoutInv a0 b0 s') ∧
    (∀ fuel s, loop64 fuel (init a0 b0) = .ok s → BezoutInv a0 b0 s) := by
  have _ := hb
  have hexact : ∀ fuel, ∀ s ∈ trace fuel (init a0 b0), BezoutInv a0 b0 s := fun fuel =>
    trace_induction (BezoutInv a0 b0)
      (fun s s' hs _ hbody => body_bezoutInv a0 b0 s s' hs hbody) fuel _ (bezoutInv_init a0 b0)
  refine ⟨bezoutInv_init a0 b0, fun fuel s hs => ?_, fun fuel s hs s' hpos hbody => ?_,
    fun fuel s hl => ?_⟩
  · rw [(run64_eq_run a0 b0 hA hB hne fuel).1] at hs
    exact hexact fuel s hs
  · obtain ⟨h1, -, h3⟩ := run64_eq_run a0 b0 hA hB hne fuel
    rw [h1] at hs
    rw [h3 s hs hpos] at hbody
    exact body_bezoutInv a0 b0 s s' (hexact fuel s hs) hbody
  · rw [(run64_eq_run a0 b0 hA hB hne fuel).2.1] at hl
    exact loop_bezoutInv fuel a0 b0 s hl

theorem loop_invariant64_witness :
    InRange64 1180 ∧ InRange64 482 ∧ (482 : Int) ≠ 0 ∧
    ¬ ((1180 : Int) = -2 ^ 63 ∧ (482 : Int) = 1) ∧
    BezoutInv 1180 482 { a := 16, b := 2, x1 := -29, x2 := 9, y1 := 71, y2 := -22 } :=
  ⟨by decide, by decide, by decide, by decide,
    (loop_invariant64 1180 482 (by decide) (by decide) (by decide) (by decide)).2.1 4 _
      (by decide)⟩

end ECC
